import Mathlib

/-!
Verification of the expense-split PWA's core logic (repository
jamshu/expense-split-pwa), via a shallow embedding in Lean 4.

JavaScript numbers are modelled as exact rationals (ℚ); JS objects used as
string-keyed maps (`balances[p]`) are modelled as association lists in
insertion order, with `setBal`/`getBal` reproducing JS property read/write
semantics (write replaces the entry in place, read of a missing key is
treated as the 0 that the code initialises before any arithmetic).
-/

/-- Association-list model of a JS balances object: keys in insertion order. -/
abbrev BalMap := List (String × ℚ)

/-- Property read `balances[k]` (the code only reads keys it has initialised,
so a missing key reads as 0). -/
def getBal : BalMap → String → ℚ
  | [], _ => 0
  | kv :: rest, k => if kv.1 = k then kv.2 else getBal rest k

/-- Property write `balances[k] = v`: replaces the existing entry in place,
or appends a new one (JS object insertion order). -/
def setBal : BalMap → String → ℚ → BalMap
  | [], k, v => [(k, v)]
  | kv :: rest, k, v => if kv.1 = k then (k, v) :: rest else kv :: setBal rest k v

/-- Model of `if (!balances[k]) balances[k] = 0` (undefined and 0 are both
falsy, so the guard fires exactly when the current read is 0). -/
def initKey (m : BalMap) (k : String) : BalMap :=
  if getBal m k = 0 then setBal m k 0 else m

/-- Model of `balances[k] += d`. -/
def addBal (m : BalMap) (k : String) (d : ℚ) : BalMap :=
  setBal m k (getBal m k + d)

/-- Model of `balances[k] -= d`. -/
def subBal (m : BalMap) (k : String) (d : ℚ) : BalMap :=
  setBal m k (getBal m k - d)

/-- Sum of all values of a balances map. -/
def sumVals : BalMap → ℚ
  | [] => 0
  | kv :: rest => kv.2 + sumVals rest

theorem getBal_setBal (m : BalMap) (k p : String) (v : ℚ) :
    getBal (setBal m k v) p = if k = p then v else getBal m p := by
  induction m with
  | nil => simp only [setBal, getBal]
  | cons kv rest ih =>
      by_cases h : kv.1 = k
      · subst h
        simp only [setBal, if_pos rfl, getBal]
        by_cases h2 : kv.1 = p <;> simp [h2]
      · simp only [setBal, if_neg h, getBal]
        by_cases h2 : kv.1 = p
        · have hk : ¬ k = p := fun hk => h (hk ▸ h2)
          rw [if_pos h2, if_neg hk, if_pos h2]
        · rw [if_neg h2, ih, if_neg h2]

theorem sumVals_setBal (m : BalMap) (k : String) (v : ℚ) :
    sumVals (setBal m k v) = sumVals m + v - getBal m k := by
  induction m with
  | nil => simp [setBal, sumVals, getBal]
  | cons kv rest ih =>
      by_cases h : kv.1 = k
      · simp [setBal, sumVals, getBal, h]; ring
      · simp only [setBal, if_neg h, sumVals, getBal, ih]
        ring

theorem sumVals_initKey (m : BalMap) (k : String) :
    sumVals (initKey m k) = sumVals m := by
  unfold initKey
  by_cases h : getBal m k = 0
  · rw [if_pos h, sumVals_setBal, h]; ring
  · rw [if_neg h]

theorem sumVals_addBal (m : BalMap) (k : String) (d : ℚ) :
    sumVals (addBal m k d) = sumVals m + d := by
  unfold addBal; rw [sumVals_setBal]; ring

theorem sumVals_subBal (m : BalMap) (k : String) (d : ℚ) :
    sumVals (subBal m k d) = sumVals m - d := by
  unfold subBal; rw [sumVals_setBal]; ring

theorem sumVals_foldl_initKey (ps : List String) (m : BalMap) :
    sumVals (ps.foldl initKey m) = sumVals m := by
  induction ps generalizing m with
  | nil => rfl
  | cons p rest ih => rw [List.foldl_cons, ih, sumVals_initKey]

theorem sumVals_foldl_subBal (ps : List String) (m : BalMap) (x : ℚ) :
    sumVals (ps.foldl (fun acc p => subBal acc p x) m) =
      sumVals m - (ps.length : ℚ) * x := by
  induction ps generalizing m with
  | nil => simp
  | cons p rest ih =>
      rw [List.foldl_cons, ih, sumVals_subBal]
      simp only [List.length_cons]
      push_cast
      ring

/-- Keys of a map, in order. -/
def keysOf (m : BalMap) : List String := m.map Prod.fst

theorem getBal_of_mem (m : BalMap) (p : String) (h : p ∈ keysOf m) :
    (p, getBal m p) ∈ m := by
  induction m with
  | nil => simp [keysOf] at h
  | cons kv rest ih =>
      by_cases hk : kv.1 = p
      · simp only [getBal, if_pos hk]
        have heq : (p, kv.2) = kv := by
          cases kv with
          | mk a b => simp only [Prod.mk.injEq]; exact ⟨hk.symm, trivial⟩
        rw [heq]
        exact List.mem_cons_self kv rest
      · simp only [getBal, if_neg hk]
        right
        apply ih
        simp [keysOf] at h ⊢
        rcases h with h | h
        · exact absurd h.symm hk
        · exact h

theorem value_unique_of_nodup {α β : Type} [DecidableEq α]
    {l : List (α × β)} (hnd : (l.map Prod.fst).Nodup)
    {a : α} {b c : β} (hb : (a, b) ∈ l) (hc : (a, c) ∈ l) : b = c := by
  induction l with
  | nil => simp at hb
  | cons kv rest ih =>
      simp only [List.map_cons, List.nodup_cons] at hnd
      rcases List.mem_cons.1 hb with hb1 | hb1 <;>
        rcases List.mem_cons.1 hc with hc1 | hc1
      · have heq : (a, b) = ((a, c) : α × β) := hb1.trans hc1.symm
        injection heq with h1 h2
      · exfalso
        apply hnd.1
        have ha : kv.1 = a := by rw [← hb1]
        rw [ha]
        exact List.mem_map_of_mem Prod.fst hc1
      · exfalso
        apply hnd.1
        have ha : kv.1 = a := by rw [← hc1]
        rw [ha]
        exact List.mem_map_of_mem Prod.fst hb1
      · exact ih hnd.2 hb1 hc1

theorem getBal_of_mem_nodup {m : BalMap} (hnd : (keysOf m).Nodup)
    {p : String} {b : ℚ} (h : (p, b) ∈ m) : getBal m p = b := by
  have hp : p ∈ keysOf m := by
    simpa [keysOf] using List.mem_map_of_mem Prod.fst h
  exact value_unique_of_nodup hnd (getBal_of_mem m p hp) h

theorem keysOf_setBal (m : BalMap) (k : String) (v : ℚ) :
    keysOf (setBal m k v) =
      if k ∈ keysOf m then keysOf m else keysOf m ++ [k] := by
  induction m with
  | nil => simp [setBal, keysOf]
  | cons kv rest ih =>
      by_cases h : kv.1 = k
      · subst h
        simp [setBal, keysOf]
      · simp only [setBal, if_neg h, keysOf, List.map_cons] at ih ⊢
        have hne : ¬ k = kv.1 := fun hk => h hk.symm
        by_cases hmem : k ∈ List.map Prod.fst rest
        · simp [hmem, hne, ih]
        · simp [hmem, hne, ih]

theorem nodupKeys_setBal {m : BalMap} (h : (keysOf m).Nodup)
    (k : String) (v : ℚ) : (keysOf (setBal m k v)).Nodup := by
  rw [keysOf_setBal]
  by_cases hmem : k ∈ keysOf m
  · rwa [if_pos hmem]
  · rw [if_neg hmem]
    rw [List.nodup_append]
    refine ⟨h, List.nodup_singleton k, ?_⟩
    intro a ha hak
    rw [List.mem_singleton] at hak
    exact hmem (hak ▸ ha)

theorem nodupKeys_initKey {m : BalMap} (h : (keysOf m).Nodup)
    (k : String) : (keysOf (initKey m k)).Nodup := by
  unfold initKey
  by_cases hg : getBal m k = 0
  · rw [if_pos hg]; exact nodupKeys_setBal h k 0
  · rwa [if_neg hg]

theorem nodupKeys_addBal {m : BalMap} (h : (keysOf m).Nodup)
    (k : String) (d : ℚ) : (keysOf (addBal m k d)).Nodup :=
  nodupKeys_setBal h k _

theorem nodupKeys_subBal {m : BalMap} (h : (keysOf m).Nodup)
    (k : String) (d : ℚ) : (keysOf (subBal m k d)).Nodup :=
  nodupKeys_setBal h k _

theorem nodupKeys_foldl_initKey (ps : List String) {m : BalMap}
    (h : (keysOf m).Nodup) : (keysOf (ps.foldl initKey m)).Nodup := by
  induction ps generalizing m with
  | nil => exact h
  | cons p rest ih => exact ih (nodupKeys_initKey h p)

theorem nodupKeys_foldl_subBal (ps : List String) {m : BalMap} (x : ℚ)
    (h : (keysOf m).Nodup) :
    (keysOf (ps.foldl (fun acc p => subBal acc p x) m)).Nodup := by
  induction ps generalizing m with
  | nil => exact h
  | cons p rest ih => exact ih (nodupKeys_subBal h p x)

/-!
Person-field normalization, from `src/src/lib/expenseUtils.js`.

A person field in the source is a dynamic value: `null`/`false`, a bare
numeric id, an `[id, name]` tuple, or a display string.  `PRef` models those
four shapes; the object shape (`{display_name: ...}`) is not exercised by
any claim and is omitted.  The legacy comma-separated-string shape of the
participants field is likewise omitted: every claim feeds an array.
-/

/-- Dynamic shapes of a person field. -/
inductive PRef where
  | nil : PRef
  | pid : Int → PRef
  | tup : Int → String → PRef
  | nm : String → PRef
deriving DecidableEq, Repr

/-- Model of `normalizePerson` (`expenseUtils.js`): null becomes the empty
string, an `[id, name]` tuple yields the name, and the primitive fallback
is `String(person)`. -/
def normalizePerson : PRef → String
  | PRef.nil => ""
  | PRef.tup _ name => name
  | PRef.nm s => s
  | PRef.pid n => toString n

/-- Model of `normalizeParticipants` (`expenseUtils.js`) on the array shape:
tuples yield their name, primitives are stringified, nulls are skipped, and
empty strings are dropped by the trailing `.filter(Boolean)`. -/
def normalizeParticipants (raw : List PRef) : List String :=
  (raw.filterMap (fun item =>
      match item with
      | PRef.nil => none
      | PRef.tup _ name => some name
      | PRef.nm s => some s
      | PRef.pid n => some (toString n))).filter (fun s => s != "")

/-- An expense record as consumed by `calculateBalances`: the three fields
the function reads (`x_studio_who_paid`, `x_studio_value`,
`x_studio_participants`), with the amount as an exact rational. -/
structure Expense where
  who_paid : PRef
  value : ℚ
  participants : List PRef
deriving DecidableEq, Repr

/-- The accumulation block shared verbatim by both `calculateBalances`
variants (`expenseUtils.js` lines 88-101, `src/unnamed/part_001` lines
109-123): initialise every involved key to 0, credit the payer with the
full amount, then debit each participant an equal share. -/
def accumulateExpense (m : BalMap) (payer : String)
    (participants : List String) (amount : ℚ) : BalMap :=
  let b1 := initKey m payer
  let b2 := participants.foldl initKey b1
  let b3 := addBal b2 payer amount
  let share := amount / (participants.length : ℚ)
  participants.foldl (fun acc p => subBal acc p share) b3

/-- One iteration of the `for (const expense of expenses)` loop of
`calculateBalances` (`expenseUtils.js` lines 66-103): normalize payer and
participants, skip ineligible records, otherwise accumulate. -/
def processExpense (m : BalMap) (e : Expense) : BalMap :=
  let payer := normalizePerson e.who_paid
  let participants := normalizeParticipants e.participants
  if payer = "" ∨ participants = [] ∨ e.value ≤ 0 then m
  else accumulateExpense m payer participants e.value

/-- `calculateBalances` from `expenseUtils.js`: fold the per-expense step
over an initially empty balances object.  Note this variant applies no
final rounding. -/
def calculateBalances (es : List Expense) : BalMap :=
  es.foldl processExpense []

theorem sumVals_accumulateExpense (m : BalMap) (payer : String)
    (participants : List String) (amount : ℚ) (h : participants ≠ []) :
    sumVals (accumulateExpense m payer participants amount) = sumVals m := by
  unfold accumulateExpense
  rw [sumVals_foldl_subBal, sumVals_addBal, sumVals_foldl_initKey,
    sumVals_initKey]
  have hlen : (participants.length : ℚ) ≠ 0 := by
    simp only [ne_eq, Nat.cast_eq_zero, List.length_eq_zero]
    exact h
  field_simp

theorem sumVals_processExpense (m : BalMap) (e : Expense) :
    sumVals (processExpense m e) = sumVals m := by
  unfold processExpense
  by_cases h : normalizePerson e.who_paid = "" ∨
      normalizeParticipants e.participants = [] ∨ e.value ≤ 0
  · rw [if_pos h]
  · rw [if_neg h]
    push_neg at h
    exact sumVals_accumulateExpense m _ _ _ h.2.1

theorem sumVals_calculateBalances (es : List Expense) :
    sumVals (calculateBalances es) = 0 := by
  suffices h : ∀ m : BalMap, sumVals (es.foldl processExpense m) = sumVals m by
    simpa [sumVals] using h []
  induction es with
  | nil => intro m; rfl
  | cons e rest ih =>
      intro m
      rw [List.foldl_cons, ih, sumVals_processExpense]

theorem nodupKeys_accumulateExpense {m : BalMap} (h : (keysOf m).Nodup)
    (payer : String) (participants : List String) (amount : ℚ) :
    (keysOf (accumulateExpense m payer participants amount)).Nodup := by
  unfold accumulateExpense
  exact nodupKeys_foldl_subBal _ _
    (nodupKeys_addBal (nodupKeys_foldl_initKey _ (nodupKeys_initKey h _)) _ _)

theorem nodupKeys_processExpense {m : BalMap} (h : (keysOf m).Nodup)
    (e : Expense) : (keysOf (processExpense m e)).Nodup := by
  unfold processExpense
  by_cases hc : normalizePerson e.who_paid = "" ∨
      normalizeParticipants e.participants = [] ∨ e.value ≤ 0
  · rw [if_pos hc]; exact h
  · rw [if_neg hc]; exact nodupKeys_accumulateExpense h _ _ _

theorem nodupKeys_calculateBalances (es : List Expense) :
    (keysOf (calculateBalances es)).Nodup := by
  suffices h : ∀ m : BalMap, (keysOf m).Nodup →
      (keysOf (es.foldl processExpense m)).Nodup by
    exact h [] (by simp [keysOf])
  induction es with
  | nil => intro m hm; exact hm
  | cons e rest ih =>
      intro m hm
      exact ih _ (nodupKeys_processExpense hm e)

/-!
Rounding helpers.

`Math.round(x)` (used by the `src/unnamed/part_001` balance rounding) is
round-half-toward-positive-infinity, which is exactly Mathlib's `round`
(`round x = ⌊x + 1/2⌋`).  `x.toFixed(2)` (used on settlement amounts)
rounds the magnitude half away from zero, i.e. it extracts the sign first.
-/

/-- Model of `Math.round(q * 100) / 100` (`part_001` line 127). -/
def mround2 (q : ℚ) : ℚ := ((round (q * 100) : ℤ) : ℚ) / 100

/-- Model of `parseFloat(amount.toFixed(2))`: round to 2 decimals, ties of
the magnitude going away from zero. -/
def round2 (q : ℚ) : ℚ :=
  if q < 0 then -(((round ((-q) * 100) : ℤ) : ℚ) / 100)
  else ((round (q * 100) : ℤ) : ℚ) / 100

/-- A rational is an exact 2-decimal value (an integer number of cents). -/
def Cent (q : ℚ) : Prop := (100 * q).den = 1

instance (q : ℚ) : Decidable (Cent q) := by unfold Cent; infer_instance

theorem cent_def (k : ℤ) : Cent ((k : ℚ) / 100) := by
  unfold Cent
  have : (100 : ℚ) * ((k : ℚ) / 100) = (k : ℚ) := by ring
  rw [this, Rat.den_intCast]

theorem cent_exists {q : ℚ} (h : Cent q) : ∃ k : ℤ, q = (k : ℚ) / 100 := by
  refine ⟨(100 * q).num, ?_⟩
  have h1 : ((100 * q).num : ℚ) = 100 * q := by
    conv_rhs => rw [← Rat.num_div_den (100 * q)]
    rw [h]
    simp
  rw [h1]
  ring

theorem cent_add {a b : ℚ} (ha : Cent a) (hb : Cent b) : Cent (a + b) := by
  obtain ⟨j, hj⟩ := cent_exists ha
  obtain ⟨k, hk⟩ := cent_exists hb
  have : a + b = ((j + k : ℤ) : ℚ) / 100 := by rw [hj, hk]; push_cast; ring
  rw [this]; exact cent_def _

theorem cent_neg {a : ℚ} (ha : Cent a) : Cent (-a) := by
  obtain ⟨j, hj⟩ := cent_exists ha
  have : -a = ((-j : ℤ) : ℚ) / 100 := by rw [hj]; push_cast; ring
  rw [this]; exact cent_def _

theorem cent_sub {a b : ℚ} (ha : Cent a) (hb : Cent b) : Cent (a - b) := by
  have := cent_add ha (cent_neg hb)
  rwa [← sub_eq_add_neg] at this

theorem cent_min {a b : ℚ} (ha : Cent a) (hb : Cent b) : Cent (min a b) := by
  rcases min_choice a b with h | h <;> rw [h] <;> assumption

theorem cent_pos_le {q : ℚ} (h : Cent q) (hpos : 0 < q) : 1 / 100 ≤ q := by
  obtain ⟨k, hk⟩ := cent_exists h
  subst hk
  have hk0 : (0 : ℚ) < (k : ℚ) := by linarith
  have hkz : (0 : ℤ) < k := by exact_mod_cast hk0
  have h1 : (1 : ℚ) ≤ (k : ℚ) := by exact_mod_cast hkz
  linarith

theorem round_intCast_q (k : ℤ) : round ((k : ℚ)) = k := round_intCast k

theorem round2_cent {q : ℚ} (h : Cent q) : round2 q = q := by
  obtain ⟨k, hk⟩ := cent_exists h
  subst hk
  unfold round2
  by_cases hneg : (k : ℚ) / 100 < 0
  · rw [if_pos hneg]
    have : -((k : ℚ) / 100) * 100 = ((-k : ℤ) : ℚ) := by push_cast; ring
    rw [this, round_intCast]
    push_cast
    ring
  · rw [if_neg hneg]
    have : (k : ℚ) / 100 * 100 = (k : ℚ) := by ring
    rw [this, round_intCast]

theorem mround2_cent (q : ℚ) : Cent (mround2 q) := by
  unfold mround2
  exact cent_def _

theorem abs_mround2_sub (q : ℚ) : |mround2 q - q| ≤ 1 / 200 := by
  unfold mround2
  have h := abs_sub_round (q * 100)
  have h2 : ((round (q * 100) : ℤ) : ℚ) / 100 - q =
      -((q * 100 - (round (q * 100) : ℤ)) / 100) := by ring
  rw [h2, abs_neg, abs_div]
  rw [abs_of_nonneg (by norm_num : (0:ℚ) ≤ 100)]
  linarith

/-!
The `src/unnamed/part_001` variant of `calculateBalances` (lines 63-131).

That variant resolves person fields against a `partners` master-data list
through its local `getPartnerName` helper, accumulates exactly like the
`expenseUtils.js` variant, and then rounds every final value with
`Math.round(balances[key] * 100) / 100`.  Its person fields are bare
numeric ids or `[id, name]` tuples (that app stores ids); `PRef1` models
those two shapes.  The `partnerMap` is a JS `Map` built by iterating the
partners list, so a later entry with the same id wins; `plookup` looks the
list up from the end to reproduce that.
-/

/-- Person-field shapes seen by the `part_001` variant. -/
inductive PRef1 where
  | pid : Int → PRef1
  | tup : Int → String → PRef1
deriving DecidableEq, Repr

/-- Last-entry-wins lookup of `partnerMap.get(id)`, absent ids giving `""`
(the falsy `undefined`). -/
def plookup (ps : List (Int × String)) (n : Int) : String :=
  (ps.reverse.lookup n).getD ""

/-- Model of `getPartnerName` (`part_001` lines 73-85): the falsy id 0
yields `""`; a numeric id resolves through the partner map with
fallback string `Partner <id>`; an `[id, name]` tuple yields the name. -/
def getPartnerName (ps : List (Int × String)) : PRef1 → String
  | PRef1.pid n =>
      if n = 0 then ""
      else if plookup ps n = "" then "Partner " ++ toString n else plookup ps n
  | PRef1.tup _ name => name

/-- An expense record as consumed by the `part_001` variant. -/
structure Expense1 where
  who_paid : PRef1
  value : ℚ
  participants : List PRef1
deriving DecidableEq, Repr

/-- Participant names of a `part_001` expense: each id resolved through
`getPartnerName`, falsy (empty) names skipped (`if (name)
participants.push(name)`). -/
def participantNamesP1 (ps : List (Int × String)) (l : List PRef1) :
    List String :=
  (l.map (getPartnerName ps)).filter (fun s => s != "")

/-- One iteration of the expense loop of the `part_001` variant (lines
88-123): skip non-positive amounts, unresolvable payers and empty
participant lists, otherwise accumulate (identically to the
`expenseUtils.js` variant). -/
def processExpenseP1 (ps : List (Int × String)) (m : BalMap)
    (e : Expense1) : BalMap :=
  if e.value ≤ 0 then m
  else
    let payer := getPartnerName ps e.who_paid
    if payer = "" then m
    else
      let participants := participantNamesP1 ps e.participants
      if participants = [] then m
      else accumulateExpense m payer participants e.value

/-- The accumulation phase of the `part_001` `calculateBalances`, before
the final rounding loop. -/
def rawBalancesP1 (es : List Expense1) (ps : List (Int × String)) : BalMap :=
  es.foldl (processExpenseP1 ps) []

/-- The final rounding loop of the `part_001` variant (lines 126-128):
`balances[key] = Math.round(balances[key] * 100) / 100` for every key. -/
def roundBalMap (m : BalMap) : BalMap :=
  m.map (fun kv => (kv.1, mround2 kv.2))

/-- `calculateBalances` from `src/unnamed/part_001`: accumulate, then round
every final value once. -/
def calculateBalancesP1 (es : List Expense1) (ps : List (Int × String)) :
    BalMap :=
  roundBalMap (rawBalancesP1 es ps)

theorem sumVals_processExpenseP1 (ps : List (Int × String)) (m : BalMap)
    (e : Expense1) : sumVals (processExpenseP1 ps m e) = sumVals m := by
  unfold processExpenseP1
  by_cases h1 : e.value ≤ 0
  · rw [if_pos h1]
  · rw [if_neg h1]
    by_cases h2 : getPartnerName ps e.who_paid = ""
    · rw [if_pos h2]
    · rw [if_neg h2]
      by_cases h3 : participantNamesP1 ps e.participants = []
      · rw [if_pos h3]
      · rw [if_neg h3]
        exact sumVals_accumulateExpense m _ _ _ h3

theorem sumVals_rawBalancesP1 (es : List Expense1)
    (ps : List (Int × String)) : sumVals (rawBalancesP1 es ps) = 0 := by
  suffices h : ∀ m : BalMap,
      sumVals (es.foldl (processExpenseP1 ps) m) = sumVals m by
    simpa [sumVals] using h []
  induction es with
  | nil => intro m; rfl
  | cons e rest ih =>
      intro m
      rw [List.foldl_cons, ih, sumVals_processExpenseP1]

theorem nodupKeys_processExpenseP1 (ps : List (Int × String)) {m : BalMap}
    (h : (keysOf m).Nodup) (e : Expense1) :
    (keysOf (processExpenseP1 ps m e)).Nodup := by
  unfold processExpenseP1
  by_cases h1 : e.value ≤ 0
  · rwa [if_pos h1]
  · rw [if_neg h1]
    by_cases h2 : getPartnerName ps e.who_paid = ""
    · rwa [if_pos h2]
    · rw [if_neg h2]
      by_cases h3 : participantNamesP1 ps e.participants = []
      · rwa [if_pos h3]
      · rw [if_neg h3]
        exact nodupKeys_accumulateExpense h _ _ _

theorem nodupKeys_rawBalancesP1 (es : List Expense1)
    (ps : List (Int × String)) : (keysOf (rawBalancesP1 es ps)).Nodup := by
  suffices h : ∀ m : BalMap, (keysOf m).Nodup →
      (keysOf (es.foldl (processExpenseP1 ps) m)).Nodup by
    exact h [] (by simp [keysOf])
  induction es with
  | nil => intro m hm; exact hm
  | cons e rest ih =>
      intro m hm
      exact ih _ (nodupKeys_processExpenseP1 ps hm e)

theorem abs_sumVals_roundBalMap (m : BalMap) :
    |sumVals (roundBalMap m) - sumVals m| ≤ (m.length : ℚ) / 200 := by
  induction m with
  | nil => simp [roundBalMap, sumVals]
  | cons kv rest ih =>
      simp only [roundBalMap, List.map_cons, sumVals, List.length_cons]
      have h1 := abs_mround2_sub kv.2
      have h2 : mround2 kv.2 + sumVals (List.map (fun kv => (kv.1, mround2 kv.2)) rest)
          - (kv.2 + sumVals rest)
          = (mround2 kv.2 - kv.2) +
            (sumVals (List.map (fun kv => (kv.1, mround2 kv.2)) rest) - sumVals rest) := by
        ring
      rw [h2]
      calc |mround2 kv.2 - kv.2 +
            (sumVals (List.map (fun kv => (kv.1, mround2 kv.2)) rest) - sumVals rest)|
          ≤ |mround2 kv.2 - kv.2| +
            |sumVals (List.map (fun kv => (kv.1, mround2 kv.2)) rest) - sumVals rest| :=
            abs_add _ _
        _ ≤ 1 / 200 + (rest.length : ℚ) / 200 := by
            refine add_le_add h1 ?_
            simpa [roundBalMap] using ih
        _ ≤ ((rest.length : ℚ) + 1) / 200 := by ring_nf; linarith
      push_cast
      linarith

/-- An eligible expense for the `expenseUtils.js` variant: resolvable
(non-empty) payer, non-empty participant list, positive amount. -/
abbrev Eligible (e : Expense) : Prop :=
  normalizePerson e.who_paid ≠ "" ∧
    normalizeParticipants e.participants ≠ [] ∧ 0 < e.value

/-- An eligible expense for the `part_001` variant. -/
abbrev EligibleP1 (ps : List (Int × String)) (e : Expense1) : Prop :=
  getPartnerName ps e.who_paid ≠ "" ∧
    participantNamesP1 ps e.participants ≠ [] ∧ 0 < e.value

/-- C2 (confirmed).  For any set of eligible expenses, the per-person
balances returned by `calculateBalances` sum to 0 up to a rounding epsilon
of 0.01 times the number of people, in both cited variants: the
`expenseUtils.js` variant (whose sum is exactly 0 in exact arithmetic) and
the `part_001` variant (whose final rounding perturbs each value by at most
half a cent). -/
theorem balances_sum_within_eps (es : List Expense) (es1 : List Expense1)
    (ps : List (Int × String))
    (h : ∀ e ∈ es, Eligible e) (h1 : ∀ e ∈ es1, EligibleP1 ps e) :
    |sumVals (calculateBalances es)| ≤
      ((calculateBalances es).length : ℚ) / 100 ∧
    |sumVals (calculateBalancesP1 es1 ps)| ≤
      ((calculateBalancesP1 es1 ps).length : ℚ) / 100 := by
  constructor
  · rw [sumVals_calculateBalances, abs_zero]
    positivity
  · have hraw := sumVals_rawBalancesP1 es1 ps
    have hbound := abs_sumVals_roundBalMap (rawBalancesP1 es1 ps)
    rw [hraw, sub_zero] at hbound
    have hcalc : calculateBalancesP1 es1 ps =
        roundBalMap (rawBalancesP1 es1 ps) := rfl
    have hlen2 : (roundBalMap (rawBalancesP1 es1 ps)).length =
        (rawBalancesP1 es1 ps).length := by
      unfold roundBalMap
      exact List.length_map _ _
    rw [hcalc, hlen2]
    have hnn : (0:ℚ) ≤ ((rawBalancesP1 es1 ps).length : ℚ) := by positivity
    linarith

/-- Witness for C2 at a concrete eligible input. -/
theorem balances_sum_within_eps_witness :
    |sumVals (calculateBalances
        [⟨PRef.nm "A", 30, [PRef.nm "A", PRef.nm "B", PRef.nm "C"]⟩])| ≤
      ((calculateBalances
        [⟨PRef.nm "A", 30, [PRef.nm "A", PRef.nm "B", PRef.nm "C"]⟩]).length : ℚ) / 100 ∧
    |sumVals (calculateBalancesP1 [⟨PRef1.pid 1, 30, [PRef1.pid 1, PRef1.pid 2]⟩]
        [(1, "Alice"), (2, "Bob")])| ≤
      ((calculateBalancesP1 [⟨PRef1.pid 1, 30, [PRef1.pid 1, PRef1.pid 2]⟩]
        [(1, "Alice"), (2, "Bob")]).length : ℚ) / 100 :=
  balances_sum_within_eps
    [⟨PRef.nm "A", 30, [PRef.nm "A", PRef.nm "B", PRef.nm "C"]⟩]
    [⟨PRef1.pid 1, 30, [PRef1.pid 1, PRef1.pid 2]⟩]
    [(1, "Alice"), (2, "Bob")]
    (by
      intro e he
      simp only [List.mem_singleton] at he
      subst he
      refine ⟨?_, ?_, by norm_num⟩ <;>
        simp [normalizePerson, normalizeParticipants])
    (by
      intro e he
      simp only [List.mem_singleton] at he
      subst he
      refine ⟨?_, ?_, by norm_num⟩ <;>
        simp [getPartnerName, participantNamesP1, plookup, List.lookup])

theorem cent_of_eq {q : ℚ} (k : ℤ) (h : q = (k : ℚ) / 100) : Cent q :=
  h ▸ cent_def k

/-- C4 counterexample.  The `expenseUtils.js` `calculateBalances` applies
no rounding at all: for a single expense of 10 split three ways, B's final
balance is the unrounded -10/3, which is not a 2-decimal value.  This
falsifies the claim that the final per-person balance values returned by
the balance computation are rounded to 2 decimal places. -/
theorem balances_unrounded_counterexample :
    ¬ Cent (getBal (calculateBalances
      [⟨PRef.nm "A", 10, [PRef.nm "A", PRef.nm "B", PRef.nm "C"]⟩]) "B") := by
  simp [Cent, calculateBalances, processExpense, normalizePerson,
    normalizeParticipants, accumulateExpense, initKey, addBal, subBal,
    getBal, setBal]
  norm_num

/-- C4 (corrected, amended claim).  In the `part_001` variant the rounding
is applied exactly once at the end of the computation: the returned map is
the raw (per-step-unrounded) accumulation with `Math.round(v * 100) / 100`
applied to each final value, so every returned value is an exact 2-decimal
number within half a cent of the exact accumulated value.  (The
`expenseUtils.js` variant applies no final rounding — see the
counterexample.) -/
theorem balances_p1_rounded_once (es : List Expense1)
    (ps : List (Int × String)) :
    calculateBalancesP1 es ps = roundBalMap (rawBalancesP1 es ps) ∧
    ∀ kv ∈ calculateBalancesP1 es ps,
      Cent kv.2 ∧ |kv.2 - getBal (rawBalancesP1 es ps) kv.1| ≤ 1 / 200 := by
  refine ⟨rfl, ?_⟩
  intro kv hkv
  have hkv2 : kv ∈ roundBalMap (rawBalancesP1 es ps) := hkv
  unfold roundBalMap at hkv2
  rw [List.mem_map] at hkv2
  obtain ⟨ab, hab, habeq⟩ := hkv2
  subst habeq
  refine ⟨mround2_cent ab.2, ?_⟩
  have hget : getBal (rawBalancesP1 es ps) ab.1 = ab.2 := by
    apply getBal_of_mem_nodup (nodupKeys_rawBalancesP1 es ps)
    exact hab
  simp only [hget]
  exact abs_mround2_sub ab.2

/-!
The settlement algorithm, `calculateSettlements` (`expenseUtils.js` lines
110-147; `src/unnamed/part_001` lines 138-175 are identical).

`Object.entries(balances)` is the map's entries in insertion order, so the
function takes the `BalMap` as a list.  The two-cursor while loop is
embedded as structural recursion on a fuel parameter: every iteration
transfers `min` of the two head remainders, so at least one remainder drops
to 0 (below the 0.01 threshold) and at least one cursor advances; hence
`creditors.length + debtors.length` iterations always suffice and the fuel
passed by `calculateSettlements` is never exhausted.  Advancing cursor `i`
(resp. `j`) past an entry is modelled by dropping the list head; a head
whose remainder stays at or above 0.01 is retained with its decremented
remainder, exactly as the mutated `creditor.amount` / `debtor.amount`. -/

/-- A settlement record `{from, to, amount}`. -/
structure Settlement where
  sFrom : String
  sTo : String
  amount : ℚ
deriving DecidableEq, Repr

/-- The two-cursor while loop of `calculateSettlements`. -/
def settleLoop : Nat → List (String × ℚ) → List (String × ℚ) → List Settlement
  | 0, _, _ => []
  | _ + 1, [], _ => []
  | _ + 1, _ :: _, [] => []
  | fuel + 1, c :: cs, d :: ds =>
      ⟨d.1, c.1, round2 (min c.2 d.2)⟩ ::
        settleLoop fuel
          (if c.2 - min c.2 d.2 < 1 / 100 then cs
           else (c.1, c.2 - min c.2 d.2) :: cs)
          (if d.2 - min c.2 d.2 < 1 / 100 then ds
           else (d.1, d.2 - min c.2 d.2) :: ds)

/-- The creditor list: entries with balance strictly above 0.01, in map
order, with their balances as amounts. -/
def splitCreditors (m : BalMap) : List (String × ℚ) :=
  m.filterMap (fun pb => if pb.2 > 1 / 100 then some pb else none)

/-- The debtor list: entries with balance strictly below -0.01, in map
order, with negated balances as amounts (the `else if` branch of the
partitioning loop). -/
def splitDebtors (m : BalMap) : List (String × ℚ) :=
  m.filterMap (fun pb =>
    if pb.2 > 1 / 100 then none
    else if pb.2 < -(1 / 100) then some (pb.1, -pb.2) else none)

/-- `calculateSettlements`: partition into creditors and debtors, then run
the two-cursor loop (fuel as discussed above). -/
def calculateSettlements (m : BalMap) : List Settlement :=
  settleLoop ((splitCreditors m).length + (splitDebtors m).length)
    (splitCreditors m) (splitDebtors m)

/-- Total amount transferred to `p` by a settlement list. -/
def paidTo : List Settlement → String → ℚ
  | [], _ => 0
  | s :: ss, p => (if s.sTo = p then s.amount else 0) + paidTo ss p

/-- Total amount transferred away from `p` by a settlement list. -/
def paidBy : List Settlement → String → ℚ
  | [], _ => 0
  | s :: ss, p => (if s.sFrom = p then s.amount else 0) + paidBy ss p

/-- The claim's notion of applying the transfers to the balance map that
produced them: each transfer adds its amount to the from-person's balance
and subtracts it from the to-person's balance. -/
def applySettlements (ss : List Settlement) (m : BalMap) : BalMap :=
  ss.foldl (fun acc s => subBal (addBal acc s.sFrom s.amount) s.sTo s.amount) m

theorem mem_splitCreditors {m : BalMap} {x : String × ℚ} :
    x ∈ splitCreditors m ↔ x ∈ m ∧ x.2 > 1 / 100 := by
  unfold splitCreditors
  rw [List.mem_filterMap]
  constructor
  · rintro ⟨a, ha, hax⟩
    by_cases h : a.2 > 1 / 100
    · rw [if_pos h] at hax
      obtain rfl := Option.some.inj hax
      exact ⟨ha, h⟩
    · rw [if_neg h] at hax
      exact absurd hax (Option.noConfusion)
  · rintro ⟨hx, h⟩
    exact ⟨x, hx, by rw [if_pos h]⟩

theorem mem_splitDebtors {m : BalMap} {x : String × ℚ} :
    x ∈ splitDebtors m ↔
      ∃ pb ∈ m, pb.2 < -(1 / 100) ∧ x = (pb.1, -pb.2) := by
  unfold splitDebtors
  rw [List.mem_filterMap]
  constructor
  · rintro ⟨a, ha, hax⟩
    by_cases h1 : a.2 > 1 / 100
    · rw [if_pos h1] at hax
      exact absurd hax (Option.noConfusion)
    · rw [if_neg h1] at hax
      by_cases h2 : a.2 < -(1 / 100)
      · rw [if_pos h2] at hax
        obtain rfl := Option.some.inj hax
        exact ⟨a, ha, h2, rfl⟩
      · rw [if_neg h2] at hax
        exact absurd hax (Option.noConfusion)
  · rintro ⟨pb, hpb, h2, rfl⟩
    refine ⟨pb, hpb, ?_⟩
    have h1 : ¬ pb.2 > 1 / 100 := by linarith
    rw [if_neg h1, if_pos h2]

theorem splitCreditors_keys_sublist (m : BalMap) :
    ((splitCreditors m).map Prod.fst).Sublist (keysOf m) := by
  induction m with
  | nil => simp [splitCreditors, keysOf]
  | cons pb rest ih =>
      unfold splitCreditors at ih ⊢
      rw [List.filterMap_cons]
      by_cases h : pb.2 > 1 / 100
      · rw [if_pos h]
        simpa [keysOf] using ih.cons₂ pb.1
      · rw [if_neg h]
        simpa [keysOf] using ih.cons pb.1

theorem splitDebtors_keys_sublist (m : BalMap) :
    ((splitDebtors m).map Prod.fst).Sublist (keysOf m) := by
  induction m with
  | nil => simp [splitDebtors, keysOf]
  | cons pb rest ih =>
      unfold splitDebtors at ih ⊢
      rw [List.filterMap_cons]
      by_cases h1 : pb.2 > 1 / 100
      · rw [if_pos h1]
        simpa [keysOf] using ih.cons pb.1
      · rw [if_neg h1]
        by_cases h2 : pb.2 < -(1 / 100)
        · rw [if_pos h2]
          simpa [keysOf] using ih.cons₂ pb.1
        · rw [if_neg h2]
          simpa [keysOf] using ih.cons pb.1

theorem creditor_debtor_disjoint {m : BalMap} (hnd : (keysOf m).Nodup)
    {p : String} (hc : p ∈ (splitCreditors m).map Prod.fst)
    (hd : p ∈ (splitDebtors m).map Prod.fst) : False := by
  rw [List.mem_map] at hc hd
  obtain ⟨x, hx, hxp⟩ := hc
  obtain ⟨y, hy, hyp⟩ := hd
  rw [mem_splitCreditors] at hx
  rw [mem_splitDebtors] at hy
  obtain ⟨pb, hpb, hpb2, rfl⟩ := hy
  have hxm : (p, x.2) ∈ m := by
    have hxe : x = (p, x.2) := by
      cases x with
      | mk a b => cases hxp; rfl
    rw [← hxe]
    exact hx.1
  have hym : (p, pb.2) ∈ m := by
    have hpe : pb = (p, pb.2) := by
      cases pb with
      | mk a b =>
          have hb : a = p := by simpa using hyp
          cases hb; rfl
    rw [← hpe]
    exact hpb
  have hvals : x.2 = pb.2 := value_unique_of_nodup hnd hxm hym
  have h1 := hx.2
  rw [hvals] at h1
  linarith

theorem paidTo_eq_zero {ss : List Settlement} {p : String}
    (h : ∀ s ∈ ss, s.sTo ≠ p) : paidTo ss p = 0 := by
  induction ss with
  | nil => rfl
  | cons s rest ih =>
      simp only [paidTo, if_neg (h s (List.mem_cons_self s rest))]
      rw [ih (fun t ht => h t (List.mem_cons_of_mem s ht))]
      ring

theorem paidBy_eq_zero {ss : List Settlement} {p : String}
    (h : ∀ s ∈ ss, s.sFrom ≠ p) : paidBy ss p = 0 := by
  induction ss with
  | nil => rfl
  | cons s rest ih =>
      simp only [paidBy, if_neg (h s (List.mem_cons_self s rest))]
      rw [ih (fun t ht => h t (List.mem_cons_of_mem s ht))]
      ring

/-- Every settlement the loop emits names a creditor as its to-person and a
debtor as its from-person. -/
theorem settleLoop_names : ∀ (fuel : Nat) (cs ds : List (String × ℚ)),
    ∀ s ∈ settleLoop fuel cs ds,
      s.sTo ∈ cs.map Prod.fst ∧ s.sFrom ∈ ds.map Prod.fst := by
  intro fuel
  induction fuel with
  | zero => intro cs ds s hs; simp [settleLoop] at hs
  | succ n ih =>
      intro cs ds s hs
      match cs, ds with
      | [], _ => simp [settleLoop] at hs
      | _ :: _, [] => simp [settleLoop] at hs
      | c :: cs', d :: ds' =>
          rw [settleLoop] at hs
          rcases List.mem_cons.1 hs with rfl | hs'
          · exact ⟨List.mem_map_of_mem Prod.fst (List.mem_cons_self c cs'),
              List.mem_map_of_mem Prod.fst (List.mem_cons_self d ds')⟩
          · obtain ⟨hto, hfrom⟩ := ih _ _ s hs'
            constructor
            · by_cases h1 : c.2 - min c.2 d.2 < 1 / 100
              · rw [if_pos h1] at hto
                exact List.mem_map.2 (by
                  obtain ⟨x, hx, hxe⟩ := List.mem_map.1 hto
                  exact ⟨x, List.mem_cons_of_mem c hx, hxe⟩)
              · rw [if_neg h1] at hto
                obtain ⟨x, hx, hxe⟩ := List.mem_map.1 hto
                rcases List.mem_cons.1 hx with rfl | hx'
                · exact List.mem_map.2 ⟨c, List.mem_cons_self c cs', hxe⟩
                · exact List.mem_map.2 ⟨x, List.mem_cons_of_mem c hx', hxe⟩
            · by_cases h2 : d.2 - min c.2 d.2 < 1 / 100
              · rw [if_pos h2] at hfrom
                exact List.mem_map.2 (by
                  obtain ⟨x, hx, hxe⟩ := List.mem_map.1 hfrom
                  exact ⟨x, List.mem_cons_of_mem d hx, hxe⟩)
              · rw [if_neg h2] at hfrom
                obtain ⟨x, hx, hxe⟩ := List.mem_map.1 hfrom
                rcases List.mem_cons.1 hx with rfl | hx'
                · exact List.mem_map.2 ⟨d, List.mem_cons_self d ds', hxe⟩
                · exact List.mem_map.2 ⟨x, List.mem_cons_of_mem d hx', hxe⟩

/-- Basic bound: `toFixed(2)` of a value at least 0.01 is still at least
0.01. -/
theorem round2_ge_hundredth {q : ℚ} (h : 1 / 100 ≤ q) :
    1 / 100 ≤ round2 q := by
  have hq : ¬ q < 0 := by linarith
  unfold round2
  rw [if_neg hq]
  have h1 : (1 : ℤ) ≤ round (q * 100) := by
    rw [round_eq]
    rw [Int.le_floor]
    push_cast
    linarith
  have h2 : (1 : ℚ) ≤ ((round (q * 100) : ℤ) : ℚ) := by exact_mod_cast h1
  linarith

/-- Amount invariant of the loop: when every remaining creditor and debtor
amount is at least 0.01, every emitted settlement amount is at least
0.01. -/
theorem settleLoop_amount_ge : ∀ (fuel : Nat) (cs ds : List (String × ℚ)),
    (∀ x ∈ cs, 1 / 100 ≤ x.2) → (∀ x ∈ ds, 1 / 100 ≤ x.2) →
    ∀ s ∈ settleLoop fuel cs ds, 1 / 100 ≤ s.amount := by
  intro fuel
  induction fuel with
  | zero => intro cs ds _ _ s hs; simp [settleLoop] at hs
  | succ n ih =>
      intro cs ds hc hd s hs
      match cs, ds with
      | [], _ => simp [settleLoop] at hs
      | _ :: _, [] => simp [settleLoop] at hs
      | c :: cs', d :: ds' =>
          rw [settleLoop] at hs
          rcases List.mem_cons.1 hs with rfl | hs'
          · apply round2_ge_hundredth
            exact le_min (hc c (List.mem_cons_self c cs'))
              (hd d (List.mem_cons_self d ds'))
          · refine ih _ _ ?_ ?_ s hs'
            · by_cases h1 : c.2 - min c.2 d.2 < 1 / 100
              · rw [if_pos h1]
                exact fun x hx => hc x (List.mem_cons_of_mem c hx)
              · rw [if_neg h1]
                intro x hx
                rcases List.mem_cons.1 hx with rfl | hx'
                · push_neg at h1; exact h1
                · exact hc x (List.mem_cons_of_mem c hx')
            · by_cases h2 : d.2 - min c.2 d.2 < 1 / 100
              · rw [if_pos h2]
                exact fun x hx => hd x (List.mem_cons_of_mem d hx)
              · rw [if_neg h2]
                intro x hx
                rcases List.mem_cons.1 hx with rfl | hx'
                · push_neg at h2; exact h2
                · exact hd x (List.mem_cons_of_mem d hx')

theorem getBal_applyOne (m : BalMap) (s : Settlement) (p : String) :
    getBal (subBal (addBal m s.sFrom s.amount) s.sTo s.amount) p =
      getBal m p + (if s.sFrom = p then s.amount else 0) -
        (if s.sTo = p then s.amount else 0) := by
  unfold subBal addBal
  by_cases ht : s.sTo = p <;> by_cases hf : s.sFrom = p
  · have hfs : s.sFrom = s.sTo := hf.trans ht.symm
    simp [getBal_setBal, ht, hf, hfs]
  · have hfs : ¬ s.sFrom = s.sTo := fun h => hf (h.trans ht)
    simp [getBal_setBal, ht, hf, hfs]
  · simp [getBal_setBal, ht, hf]
  · simp [getBal_setBal, ht, hf]

theorem getBal_applySettlements (ss : List Settlement) (m : BalMap)
    (p : String) :
    getBal (applySettlements ss m) p =
      getBal m p + paidBy ss p - paidTo ss p := by
  induction ss generalizing m with
  | nil => simp [applySettlements, paidBy, paidTo]
  | cons s rest ih =>
      unfold applySettlements at ih ⊢
      rw [List.foldl_cons, ih, getBal_applyOne]
      simp only [paidBy, paidTo]
      ring

theorem eq_nil_of_pos_sum_zero {l : List (String × ℚ)}
    (h : ∀ x ∈ l, 1 / 100 ≤ x.2)
    (hs : (l.map (fun x => x.2)).sum = 0) : l = [] := by
  cases l with
  | nil => rfl
  | cons x xs =>
      exfalso
      have hx := h x (List.mem_cons_self x xs)
      have hrest : 0 ≤ (xs.map (fun x => x.2)).sum := by
        apply List.sum_nonneg
        intro q hq
        rw [List.mem_map] at hq
        obtain ⟨y, hy, rfl⟩ := hq
        linarith [h y (List.mem_cons_of_mem x hy)]
      simp only [List.map_cons, List.sum_cons] at hs
      linarith

/-- Exactness of the greedy loop on cent-valued, balanced inputs: when every
creditor and debtor amount is a positive whole number of cents and the two
sides have equal totals, the loop pays every creditor exactly its amount and
collects from every debtor exactly its amount. -/
theorem settleLoop_exact : ∀ (fuel : Nat) (cs ds : List (String × ℚ)),
    cs.length + ds.length ≤ fuel →
    (∀ x ∈ cs, Cent x.2 ∧ 1 / 100 ≤ x.2) →
    (∀ x ∈ ds, Cent x.2 ∧ 1 / 100 ≤ x.2) →
    (cs.map (fun x => x.2)).sum = (ds.map (fun x => x.2)).sum →
    (cs.map Prod.fst).Nodup → (ds.map Prod.fst).Nodup →
    (∀ c ∈ cs, paidTo (settleLoop fuel cs ds) c.1 = c.2) ∧
    (∀ d ∈ ds, paidBy (settleLoop fuel cs ds) d.1 = d.2) := by
  intro fuel
  induction fuel with
  | zero =>
      intro cs ds hlen hc hd hsum hcn hdn
      have hcs : cs = [] := List.length_eq_zero.1 (by omega)
      have hds : ds = [] := List.length_eq_zero.1 (by omega)
      subst hcs; subst hds
      exact ⟨fun c hc => absurd hc (List.not_mem_nil c),
        fun d hd => absurd hd (List.not_mem_nil d)⟩
  | succ n ih =>
      intro cs ds hlen hc hd hsum hcn hdn
      match cs, ds with
      | [], ds =>
          have hds : ds = [] := by
            apply eq_nil_of_pos_sum_zero (fun x hx => (hd x hx).2)
            simp only [List.map_nil, List.sum_nil] at hsum
            exact hsum.symm
          subst hds
          exact ⟨fun c hc => absurd hc (List.not_mem_nil c),
            fun d hd => absurd hd (List.not_mem_nil d)⟩
      | c :: cs', [] =>
          have hcs : c :: cs' = [] := by
            apply eq_nil_of_pos_sum_zero (fun x hx => (hc x hx).2)
            simpa using hsum
          exact absurd hcs (List.cons_ne_nil c cs')
      | c :: cs', d :: ds' =>
          obtain ⟨hcC, hcGe⟩ := hc c (List.mem_cons_self c cs')
          obtain ⟨hdC, hdGe⟩ := hd d (List.mem_cons_self d ds')
          simp only [List.map_cons, List.nodup_cons] at hcn hdn
          obtain ⟨hcn1, hcn2⟩ := hcn
          obtain ⟨hdn1, hdn2⟩ := hdn
          simp only [List.map_cons, List.sum_cons] at hsum
          rcases lt_trichotomy c.2 d.2 with hlt | heq | hgt
          · -- creditor exhausted, debtor keeps the difference
            have hmin : min c.2 d.2 = c.2 := min_eq_left hlt.le
            have h1 : c.2 - min c.2 d.2 < 1 / 100 := by
              rw [hmin]; norm_num
            have h2 : ¬ (d.2 - min c.2 d.2 < 1 / 100) := by
              rw [hmin]
              push_neg
              exact cent_pos_le (cent_sub hdC hcC) (by linarith)
            have hunfold : settleLoop (n + 1) (c :: cs') (d :: ds') =
                ⟨d.1, c.1, round2 (min c.2 d.2)⟩ ::
                  settleLoop n cs' ((d.1, d.2 - min c.2 d.2) :: ds') := by
              rw [settleLoop, if_pos h1, if_neg h2]
            rw [hmin] at hunfold
            have hIH := ih cs' ((d.1, d.2 - c.2) :: ds')
              (by simp only [List.length_cons] at hlen ⊢; omega)
              (fun x hx => hc x (List.mem_cons_of_mem c hx))
              (by
                intro x hx
                rcases List.mem_cons.1 hx with rfl | hx'
                · constructor
                  · exact cent_sub hdC hcC
                  · show (1:ℚ) / 100 ≤ d.2 - c.2
                    exact cent_pos_le (cent_sub hdC hcC) (by linarith)
                · exact hd x (List.mem_cons_of_mem d hx'))
              (by
                simp only [List.map_cons, List.sum_cons]
                linarith)
              hcn2
              (by simp only [List.map_cons]; exact List.nodup_cons.2 ⟨hdn1, hdn2⟩)
            constructor
            · intro c' hmem
              rcases List.mem_cons.1 hmem with rfl | hmem'
              · rw [hunfold]
                have hzero : paidTo
                    (settleLoop n cs' ((d.1, d.2 - c'.2) :: ds')) c'.1 = 0 := by
                  apply paidTo_eq_zero
                  intro t ht
                  have hmem2 := (settleLoop_names n _ _ t ht).1
                  intro hteq
                  exact hcn1 (hteq ▸ hmem2)
                simp [paidTo, hzero, round2_cent hcC]
              · rw [hunfold]
                have hne : ¬ (c.1 = c'.1) := fun hne =>
                  hcn1 (by rw [hne]; exact List.mem_map_of_mem Prod.fst hmem')
                simp [paidTo, hne]
                exact hIH.1 c' hmem'
            · intro d' hmem
              rcases List.mem_cons.1 hmem with rfl | hmem'
              · rw [hunfold]
                have hval := hIH.2 (d'.1, d'.2 - c.2) (List.mem_cons_self _ ds')
                simp only at hval
                simp [paidBy, hval, round2_cent hcC]
              · rw [hunfold]
                have hne : ¬ (d.1 = d'.1) := fun hne =>
                  hdn1 (by rw [hne]; exact List.mem_map_of_mem Prod.fst hmem')
                simp [paidBy, hne]
                exact hIH.2 d' (List.mem_cons_of_mem _ hmem')
          · -- both exhausted together
            have hmin : min c.2 d.2 = c.2 := min_eq_left heq.le
            have h1 : c.2 - min c.2 d.2 < 1 / 100 := by
              rw [hmin]; norm_num
            have h2 : d.2 - min c.2 d.2 < 1 / 100 := by
              rw [hmin, ← heq]; norm_num
            have hunfold : settleLoop (n + 1) (c :: cs') (d :: ds') =
                ⟨d.1, c.1, round2 (min c.2 d.2)⟩ :: settleLoop n cs' ds' := by
              rw [settleLoop, if_pos h1, if_pos h2]
            rw [hmin] at hunfold
            have hIH := ih cs' ds'
              (by simp only [List.length_cons] at hlen ⊢; omega)
              (fun x hx => hc x (List.mem_cons_of_mem c hx))
              (fun x hx => hd x (List.mem_cons_of_mem d hx))
              (by linarith)
              hcn2 hdn2
            constructor
            · intro c' hmem
              rcases List.mem_cons.1 hmem with rfl | hmem'
              · rw [hunfold]
                have hzero : paidTo (settleLoop n cs' ds') c'.1 = 0 := by
                  apply paidTo_eq_zero
                  intro t ht
                  have hmem2 := (settleLoop_names n _ _ t ht).1
                  intro hteq
                  exact hcn1 (hteq ▸ hmem2)
                simp [paidTo, hzero, round2_cent hcC]
              · rw [hunfold]
                have hne : ¬ (c.1 = c'.1) := fun hne =>
                  hcn1 (by rw [hne]; exact List.mem_map_of_mem Prod.fst hmem')
                simp [paidTo, hne]
                exact hIH.1 c' hmem'
            · intro d' hmem
              rcases List.mem_cons.1 hmem with rfl | hmem'
              · rw [hunfold]
                have hzero : paidBy (settleLoop n cs' ds') d'.1 = 0 := by
                  apply paidBy_eq_zero
                  intro t ht
                  have hmem2 := (settleLoop_names n _ _ t ht).2
                  intro hteq
                  exact hdn1 (hteq ▸ hmem2)
                simp [paidBy, hzero, round2_cent hcC, round2_cent hdC, heq]
              · rw [hunfold]
                have hne : ¬ (d.1 = d'.1) := fun hne =>
                  hdn1 (by rw [hne]; exact List.mem_map_of_mem Prod.fst hmem')
                simp [paidBy, hne]
                exact hIH.2 d' hmem'
          · -- debtor exhausted, creditor keeps the difference
            have hmin : min c.2 d.2 = d.2 := min_eq_right hgt.le
            have h1 : ¬ (c.2 - min c.2 d.2 < 1 / 100) := by
              rw [hmin]
              push_neg
              exact cent_pos_le (cent_sub hcC hdC) (by linarith)
            have h2 : d.2 - min c.2 d.2 < 1 / 100 := by
              rw [hmin]; norm_num
            have hunfold : settleLoop (n + 1) (c :: cs') (d :: ds') =
                ⟨d.1, c.1, round2 (min c.2 d.2)⟩ ::
                  settleLoop n ((c.1, c.2 - min c.2 d.2) :: cs') ds' := by
              rw [settleLoop, if_neg h1, if_pos h2]
            rw [hmin] at hunfold
            have hIH := ih ((c.1, c.2 - d.2) :: cs') ds'
              (by simp only [List.length_cons] at hlen ⊢; omega)
              (by
                intro x hx
                rcases List.mem_cons.1 hx with rfl | hx'
                · constructor
                  · exact cent_sub hcC hdC
                  · show (1:ℚ) / 100 ≤ c.2 - d.2
                    exact cent_pos_le (cent_sub hcC hdC) (by linarith)
                · exact hc x (List.mem_cons_of_mem c hx'))
              (fun x hx => hd x (List.mem_cons_of_mem d hx))
              (by
                simp only [List.map_cons, List.sum_cons]
                linarith)
              (by simp only [List.map_cons]; exact List.nodup_cons.2 ⟨hcn1, hcn2⟩)
              hdn2
            constructor
            · intro c' hmem
              rcases List.mem_cons.1 hmem with rfl | hmem'
              · rw [hunfold]
                have hval := hIH.1 (c'.1, c'.2 - d.2) (List.mem_cons_self _ cs')
                simp only at hval
                simp [paidTo, hval, round2_cent hdC]
              · rw [hunfold]
                have hne : ¬ (c.1 = c'.1) := fun hne =>
                  hcn1 (by rw [hne]; exact List.mem_map_of_mem Prod.fst hmem')
                simp [paidTo, hne]
                exact hIH.1 c' (List.mem_cons_of_mem _ hmem')
            · intro d' hmem
              rcases List.mem_cons.1 hmem with rfl | hmem'
              · rw [hunfold]
                have hzero : paidBy
                    (settleLoop n ((c.1, c.2 - d'.2) :: cs') ds') d'.1 = 0 := by
                  apply paidBy_eq_zero
                  intro t ht
                  have hmem2 := (settleLoop_names n _ _ t ht).2
                  intro hteq
                  exact hdn1 (hteq ▸ hmem2)
                simp [paidBy, hzero, round2_cent hdC]
              · rw [hunfold]
                have hne : ¬ (d.1 = d'.1) := fun hne =>
                  hdn1 (by rw [hne]; exact List.mem_map_of_mem Prod.fst hmem')
                simp [paidBy, hne]
                exact hIH.2 d' hmem'

/-- C3 (confirmed).  The spec's concrete scenario: a single expense of 30
paid by A and split between A, B and C yields exactly the balance map
A ↦ 20, B ↦ -10, C ↦ -10, and `calculateSettlements` applied to that map
returns exactly the transfers B→A 10 and C→A 10. -/
theorem scenario_single_expense :
    calculateBalances [⟨PRef.nm "A", 30, [PRef.nm "A", PRef.nm "B", PRef.nm "C"]⟩] =
      [("A", 20), ("B", -10), ("C", -10)] ∧
    calculateSettlements [("A", 20), ("B", -10), ("C", -10)] =
      [⟨"B", "A", 10⟩, ⟨"C", "A", 10⟩] := by
  constructor
  · simp [calculateBalances, processExpense, normalizePerson,
      normalizeParticipants, accumulateExpense, initKey, addBal, subBal,
      getBal, setBal]
    norm_num
  · norm_num [calculateSettlements, splitCreditors, splitDebtors,
      List.filterMap_cons, settleLoop, round2, round_eq]

/-- C1 counterexample.  The claim quantifies over every input balance map,
but on the map A ↦ 0.02, B ↦ -0.01, C ↦ -0.01 (which even sums to zero)
the algorithm emits no settlement at all: B and C sit exactly at the -0.01
threshold and are excluded from the debtor list, so A's 0.02 is never paid
and remains outside the 0.01 band after applying the (empty) settlement
list. -/
theorem settlement_correctness_counterexample :
    "A" ∈ keysOf [("A", 1/50), ("B", -(1/100)), ("C", -(1/100))] ∧
    calculateSettlements [("A", 1/50), ("B", -(1/100)), ("C", -(1/100))] = [] ∧
    ¬ |getBal (applySettlements
        (calculateSettlements [("A", 1/50), ("B", -(1/100)), ("C", -(1/100))])
        [("A", 1/50), ("B", -(1/100)), ("C", -(1/100))]) "A"| ≤ 1 / 100 := by
  have hset : calculateSettlements
      [("A", 1/50), ("B", -(1/100)), ("C", -(1/100))] = [] := by
    norm_num [calculateSettlements, splitCreditors, splitDebtors,
      List.filterMap_cons, settleLoop]
  refine ⟨by simp [keysOf], hset, ?_⟩
  rw [hset]
  have habs : |(1:ℚ)/50| = 1/50 := abs_of_pos (by norm_num)
  norm_num [applySettlements, getBal, habs]

/-- C1 (corrected, amended claim).  For every input balance map with
distinct person names whose balances are whole numbers of cents and whose
creditor total (sum of balances above 0.01) equals its debtor total (sum of
the negated balances below -0.01), applying every settlement transfer
returned by `calculateSettlements` to the map drives every person's balance
to within 0.01 of zero. -/
theorem settlements_settle_balanced_cent_map (m : BalMap)
    (hnd : (keysOf m).Nodup)
    (hcent : ∀ x ∈ m, Cent x.2)
    (hbal : ((splitCreditors m).map (fun x => x.2)).sum =
      ((splitDebtors m).map (fun x => x.2)).sum) :
    ∀ p ∈ keysOf m,
      |getBal (applySettlements (calculateSettlements m) m) p| ≤ 1 / 100 := by
  have hc : ∀ x ∈ splitCreditors m, Cent x.2 ∧ 1 / 100 ≤ x.2 := by
    intro x hx
    rw [mem_splitCreditors] at hx
    exact ⟨hcent x hx.1, le_of_lt hx.2⟩
  have hd : ∀ x ∈ splitDebtors m, Cent x.2 ∧ 1 / 100 ≤ x.2 := by
    intro x hx
    rw [mem_splitDebtors] at hx
    obtain ⟨pb, hpb, h2, rfl⟩ := hx
    constructor
    · show Cent (-pb.2)
      exact cent_neg (hcent pb hpb)
    · show (1:ℚ) / 100 ≤ -pb.2
      linarith
  have hcn : ((splitCreditors m).map Prod.fst).Nodup :=
    (splitCreditors_keys_sublist m).nodup hnd
  have hdn : ((splitDebtors m).map Prod.fst).Nodup :=
    (splitDebtors_keys_sublist m).nodup hnd
  have hspec := settleLoop_exact
    ((splitCreditors m).length + (splitDebtors m).length)
    (splitCreditors m) (splitDebtors m) le_rfl hc hd hbal hcn hdn
  intro p hp
  have hentry : (p, getBal m p) ∈ m := getBal_of_mem m p hp
  rw [getBal_applySettlements]
  by_cases hcred : 1 / 100 < getBal m p
  · have hmemc : (p, getBal m p) ∈ splitCreditors m :=
      mem_splitCreditors.2 ⟨hentry, hcred⟩
    have hTo : paidTo (calculateSettlements m) p = getBal m p :=
      hspec.1 (p, getBal m p) hmemc
    have hBy : paidBy (calculateSettlements m) p = 0 := by
      apply paidBy_eq_zero
      intro s hs hfe
      have hf := (settleLoop_names _ _ _ s hs).2
      exact creditor_debtor_disjoint hnd
        (List.mem_map_of_mem Prod.fst hmemc) (hfe ▸ hf)
    rw [hTo, hBy]
    norm_num
  · by_cases hdebt : getBal m p < -(1 / 100)
    · have hmemd : (p, -(getBal m p)) ∈ splitDebtors m :=
        mem_splitDebtors.2 ⟨(p, getBal m p), hentry, hdebt, rfl⟩
      have hBy : paidBy (calculateSettlements m) p = -(getBal m p) :=
        hspec.2 (p, -(getBal m p)) hmemd
      have hTo : paidTo (calculateSettlements m) p = 0 := by
        apply paidTo_eq_zero
        intro s hs hte
        have ht := (settleLoop_names _ _ _ s hs).1
        exact creditor_debtor_disjoint hnd (hte ▸ ht)
          (List.mem_map_of_mem Prod.fst hmemd)
      rw [hTo, hBy]
      norm_num
    · have hnotc : p ∉ (splitCreditors m).map Prod.fst := by
        intro hpc
        rw [List.mem_map] at hpc
        obtain ⟨x, hx, hxp⟩ := hpc
        rw [mem_splitCreditors] at hx
        have hxm : (p, x.2) ∈ m := by
          have hxe : x = (p, x.2) := by
            cases x with
            | mk a b => cases hxp; rfl
          rw [← hxe]
          exact hx.1
        have hvb : x.2 = getBal m p := value_unique_of_nodup hnd hxm hentry
        rw [hvb] at hx
        exact hcred hx.2
      have hnotd : p ∉ (splitDebtors m).map Prod.fst := by
        intro hpd
        rw [List.mem_map] at hpd
        obtain ⟨x, hx, hxp⟩ := hpd
        rw [mem_splitDebtors] at hx
        obtain ⟨pb, hpb, h2, rfl⟩ := hx
        have hpm : (p, pb.2) ∈ m := by
          have hpe : pb = (p, pb.2) := by
            cases pb with
            | mk a b =>
                have hb : a = p := by simpa using hxp
                cases hb; rfl
          rw [← hpe]
          exact hpb
        have hvb : pb.2 = getBal m p := value_unique_of_nodup hnd hpm hentry
        rw [hvb] at h2
        exact hdebt h2
      have hTo : paidTo (calculateSettlements m) p = 0 := by
        apply paidTo_eq_zero
        intro s hs hte
        exact hnotc (hte ▸ (settleLoop_names _ _ _ s hs).1)
      have hBy : paidBy (calculateSettlements m) p = 0 := by
        apply paidBy_eq_zero
        intro s hs hfe
        exact hnotd (hfe ▸ (settleLoop_names _ _ _ s hs).2)
      rw [hTo, hBy]
      rw [abs_le]
      push_neg at hcred hdebt
      constructor <;> linarith

/-- Witness for C1's amended theorem, at the scenario map. -/
theorem settlements_settle_balanced_cent_map_witness :
    |getBal (applySettlements
      (calculateSettlements [("A", 20), ("B", -10), ("C", -10)])
      [("A", 20), ("B", -10), ("C", -10)]) "B"| ≤ 1 / 100 :=
  settlements_settle_balanced_cent_map
    [("A", 20), ("B", -10), ("C", -10)]
    (by simp [keysOf])
    (by
      intro x hx
      simp only [List.mem_cons, List.not_mem_nil, or_false] at hx
      rcases hx with rfl | rfl | rfl
      · exact cent_of_eq 2000 (by norm_num)
      · exact cent_of_eq (-1000) (by norm_num)
      · exact cent_of_eq (-1000) (by norm_num))
    (by norm_num [splitCreditors, splitDebtors, List.filterMap_cons])
    "B" (by simp [keysOf])

/-- C10 (confirmed).  On any balance map with distinct person names, every
settlement entry returned by `calculateSettlements` carries a strictly
positive amount (indeed at least 0.01) and a from-person distinct from its
to-person.  (The input map itself is untouched: the embedding is pure, and
the source mutates only the local creditor/debtor entry copies it builds,
never the `balances` argument.) -/
theorem settlements_positive_and_distinct (m : BalMap)
    (hnd : (keysOf m).Nodup) :
    ∀ s ∈ calculateSettlements m, 0 < s.amount ∧ s.sFrom ≠ s.sTo := by
  intro s hs
  have hc : ∀ x ∈ splitCreditors m, 1 / 100 ≤ x.2 := fun x hx =>
    le_of_lt (mem_splitCreditors.1 hx).2
  have hd : ∀ x ∈ splitDebtors m, 1 / 100 ≤ x.2 := by
    intro x hx
    obtain ⟨pb, hpb, h2, rfl⟩ := mem_splitDebtors.1 hx
    show (1:ℚ) / 100 ≤ -pb.2
    linarith
  constructor
  · have := settleLoop_amount_ge _ _ _ hc hd s hs
    linarith
  · intro heq
    have hto := (settleLoop_names _ _ _ s hs).1
    have hfrom := (settleLoop_names _ _ _ s hs).2
    rw [heq] at hfrom
    exact creditor_debtor_disjoint hnd hto hfrom

/-- Witness for C10 at the scenario map and its first settlement. -/
theorem settlements_positive_and_distinct_witness :
    0 < (Settlement.mk "B" "A" 10).amount ∧
      (Settlement.mk "B" "A" 10).sFrom ≠ (Settlement.mk "B" "A" 10).sTo :=
  settlements_positive_and_distinct [("A", 20), ("B", -10), ("C", -10)]
    (by simp [keysOf])
    (Settlement.mk "B" "A" 10)
    (by
      rw [show calculateSettlements [("A", 20), ("B", -10), ("C", -10)] =
          [⟨"B", "A", 10⟩, ⟨"C", "A", 10⟩] from by
        norm_num [calculateSettlements, splitCreditors, splitDebtors,
          List.filterMap_cons, settleLoop, round2, round_eq]]
      simp)

/-!
The offline sync layer.

Records live in IndexedDB object stores keyed by `id` (`src/src/lib/db.js`:
`keyPath: 'id'`, `put` = upsert, `delete` by key).  A record id is either a
remote numeric id or a locally generated string key (`typeof e.id ===
'number'` vs `'string'`); `EKey` models that union.  The stores are
modelled as lists of records in insertion order; `put` replaces the entry
with the same key in place or appends.  Network calls are modelled by
passing their outcomes in as data (an oracle function or an `Except`
value), since the remote side is an external collaborator.
-/

/-- A record key: remote numeric id or local string key. -/
inductive EKey where
  | num : Nat → EKey
  | str : String → EKey
deriving DecidableEq, Repr

/-- `typeof e.id === 'string'`. -/
def EKey.isStr : EKey → Bool
  | EKey.str _ => true
  | EKey.num _ => false

/-- An expense row as stored in the EXPENSES store: its key, an opaque
field payload (`data`), and its `syncStatus` string. -/
structure Rec where
  id : EKey
  data : Nat
  syncStatus : String
deriving DecidableEq, Repr

/-- IndexedDB `put` on a store with `keyPath: 'id'`. -/
def upsertRec : List Rec → Rec → List Rec
  | [], r => [r]
  | x :: xs, r => if x.id = r.id then r :: xs else x :: upsertRec xs r

/-- `putMany`: a `put` per record, in order. -/
def upsertMany (store : List Rec) (rs : List Rec) : List Rec :=
  rs.foldl upsertRec store

/-- The merge step of the offline store's `sync`
(`src/src/lib/expenseUtils.js`, offline-cache section, lines 404-430 of the
concatenated file): fetched records are marked `synced`; on a full refresh
the merged set is the fetched records plus the string-keyed (local-only)
cached records, otherwise the cached records plus the fetched records whose
ids are not already cached. -/
def mergeExpenses (cached : List Rec) (fetched : List (Nat × Nat))
    (forceFullRefresh : Bool) : List Rec :=
  let syncedExpenses := fetched.map (fun p => Rec.mk (EKey.num p.1) p.2 "synced")
  if forceFullRefresh then
    let localExpenses := cached.filter (fun e => e.id.isStr)
    syncedExpenses ++ localExpenses
  else
    let newExpenses := syncedExpenses.filter
      (fun e => !(cached.any (fun c => c.id == e.id)))
    cached ++ newExpenses

/-- C6 (confirmed).  The full-pull merge policy: a record id present both
locally and remotely ends up (uniquely) with the remote copy's field
values, local-only string-keyed records survive unchanged, a cached remote
id absent from the full pull's result set is dropped from the merged record
set, and an incremental merge never drops anything. -/
theorem full_pull_merge_policy (cached : List Rec) (fetched : List (Nat × Nat))
    (hfnd : (fetched.map Prod.fst).Nodup) :
    (∀ n dta, (n, dta) ∈ fetched →
      Rec.mk (EKey.num n) dta "synced" ∈ mergeExpenses cached fetched true ∧
      ∀ r ∈ mergeExpenses cached fetched true,
        r.id = EKey.num n → r = Rec.mk (EKey.num n) dta "synced") ∧
    (∀ r ∈ cached, r.id.isStr = true → r ∈ mergeExpenses cached fetched true) ∧
    (∀ r ∈ cached, ∀ n, r.id = EKey.num n →
      n ∉ fetched.map Prod.fst → r ∉ mergeExpenses cached fetched true) ∧
    (∀ r ∈ cached, r ∈ mergeExpenses cached fetched false) := by
  refine ⟨?_, ?_, ?_, ?_⟩
  · intro n dta hmem
    constructor
    · unfold mergeExpenses
      simp only [if_pos]
      apply List.mem_append_left
      exact List.mem_map.2 ⟨(n, dta), hmem, rfl⟩
    · intro r hr hrid
      unfold mergeExpenses at hr
      simp only [if_pos] at hr
      rcases List.mem_append.1 hr with hr1 | hr1
      · rw [List.mem_map] at hr1
        obtain ⟨p, hp, rfl⟩ := hr1
        simp only [Rec.mk.injEq]
        have hpn : p.1 = n := by
          have := hrid
          simp only [EKey.num.injEq] at this
          exact this
        refine ⟨by rw [hpn], ?_, trivial⟩
        have hpmem : (n, p.2) ∈ fetched := by
          have hpe : p = (n, p.2) := by
            cases p with
            | mk a b => cases hpn; rfl
          rw [← hpe]
          exact hp
        exact value_unique_of_nodup hfnd hpmem hmem
      · rw [List.mem_filter] at hr1
        have := hr1.2
        rw [hrid] at this
        simp [EKey.isStr] at this
  · intro r hr hstr
    unfold mergeExpenses
    simp only [if_pos]
    apply List.mem_append_right
    rw [List.mem_filter]
    exact ⟨hr, hstr⟩
  · intro r hr n hrid hnotin hmem
    unfold mergeExpenses at hmem
    simp only [if_pos] at hmem
    rcases List.mem_append.1 hmem with hm1 | hm1
    · rw [List.mem_map] at hm1
      obtain ⟨p, hp, hpe⟩ := hm1
      apply hnotin
      have : EKey.num p.1 = EKey.num n := by
        rw [← hrid, ← hpe]
      simp only [EKey.num.injEq] at this
      rw [← this]
      exact List.mem_map_of_mem Prod.fst hp
    · rw [List.mem_filter] at hm1
      have := hm1.2
      rw [hrid] at this
      simp [EKey.isStr] at this
  · intro r hr
    unfold mergeExpenses
    simp only [Bool.false_eq_true, if_neg]
    exact List.mem_append_left _ hr

/-- Witness for C6 at a concrete cache/fetch pair. -/
theorem full_pull_merge_policy_witness :
    (Rec.mk (EKey.num 1) 11 "synced" ∈ mergeExpenses
      [Rec.mk (EKey.num 1) 10 "synced", Rec.mk (EKey.num 2) 20 "synced",
        Rec.mk (EKey.str "loc") 30 "pending"] [(1, 11), (3, 31)] true) ∧
    (Rec.mk (EKey.str "loc") 30 "pending" ∈ mergeExpenses
      [Rec.mk (EKey.num 1) 10 "synced", Rec.mk (EKey.num 2) 20 "synced",
        Rec.mk (EKey.str "loc") 30 "pending"] [(1, 11), (3, 31)] true) ∧
    (Rec.mk (EKey.num 2) 20 "synced" ∉ mergeExpenses
      [Rec.mk (EKey.num 1) 10 "synced", Rec.mk (EKey.num 2) 20 "synced",
        Rec.mk (EKey.str "loc") 30 "pending"] [(1, 11), (3, 31)] true) ∧
    (Rec.mk (EKey.num 2) 20 "synced" ∈ mergeExpenses
      [Rec.mk (EKey.num 1) 10 "synced", Rec.mk (EKey.num 2) 20 "synced",
        Rec.mk (EKey.str "loc") 30 "pending"] [(1, 11), (3, 31)] false) := by
  have h := full_pull_merge_policy
    [Rec.mk (EKey.num 1) 10 "synced", Rec.mk (EKey.num 2) 20 "synced",
      Rec.mk (EKey.str "loc") 30 "pending"] [(1, 11), (3, 31)]
    (by decide)
  refine ⟨(h.1 1 11 (by decide)).1, ?_, ?_, ?_⟩
  · exact h.2.1 (Rec.mk (EKey.str "loc") 30 "pending") (by decide) (by decide)
  · exact h.2.2.1 (Rec.mk (EKey.num 2) 20 "synced") (by decide) 2 rfl (by decide)
  · exact h.2.2.2 (Rec.mk (EKey.num 2) 20 "synced") (by decide)

/-!
The pending-operation queue, `src/src/lib/syncQueue.js`.

Queue items live in the SYNC_QUEUE store (`keyPath: 'id'`, auto-increment).
`getPendingItems` fetches the `pending` items then the `failed` items by
the status index and sorts the concatenation by timestamp (a stable sort —
modelled with a stable insertion sort).  `processSyncQueue` walks that
snapshot: marks each item `syncing`, dispatches it (the network outcome is
the `oracle` parameter, standing for `processQueueItem`'s result object),
removes it on success (also deleting the local expense row for a create
with a returned remote id, and the remote-keyed row for a delete), and on
failure re-writes it with `status: 'failed'`, the error message and an
incremented `retryCount` — unless the incremented count has reached 5,
in which case the item is deleted from the queue for good.
-/

/-- Queue-item status. -/
inductive QStatus where
  | pending
  | syncing
  | failed
deriving DecidableEq, Repr

/-- Queue-item operation. -/
inductive QOp where
  | create
  | update
  | delete
deriving DecidableEq, Repr

/-- A SYNC_QUEUE row. -/
structure QItem where
  id : Nat
  op : QOp
  localId : Option String
  remoteId : Option Nat
  timestamp : Nat
  status : QStatus
  retryCount : Nat
  errMsg : String
deriving DecidableEq, Repr

/-- Result object of `processQueueItem`: success carries the (possibly
absent) remote id, failure carries the error message. -/
inductive RemoteResult where
  | ok : Option Nat → RemoteResult
  | err : String → RemoteResult
deriving DecidableEq, Repr

/-- `queueOperation`: a fresh entry is always `pending` with
`retryCount: 0`. -/
def queueOperation (i : Nat) (op : QOp) (localId : Option String)
    (remoteId : Option Nat) (timestamp : Nat) : QItem :=
  QItem.mk i op localId remoteId timestamp QStatus.pending 0 ""

/-- IndexedDB `put` on SYNC_QUEUE. -/
def qput : List QItem → QItem → List QItem
  | [], it => [it]
  | j :: js, it => if j.id = it.id then it :: js else j :: qput js it

/-- IndexedDB `delete` on SYNC_QUEUE. -/
def qremove (q : List QItem) (i : Nat) : List QItem :=
  q.filter (fun j => j.id != i)

/-- Stable insert for the timestamp sort. -/
def insertLe {α : Type} (le : α → α → Bool) (x : α) : List α → List α
  | [] => [x]
  | y :: ys => if le x y then x :: y :: ys else y :: insertLe le x ys

/-- Stable insertion sort (models the stable `Array.prototype.sort`). -/
def insertionSortBy {α : Type} (le : α → α → Bool) : List α → List α
  | [] => []
  | x :: xs => insertLe le x (insertionSortBy le xs)

/-- `getPendingItems`: pending items, then failed items, sorted by
timestamp ascending. -/
def getPendingItems (queue : List QItem) : List QItem :=
  insertionSortBy (fun a b => a.timestamp ≤ b.timestamp)
    ((queue.filter (fun it => it.status == QStatus.pending)) ++
      (queue.filter (fun it => it.status == QStatus.failed)))

/-- JS truthiness of an optional number (`0`, `null` falsy). -/
def optNatTruthy : Option Nat → Bool
  | some n => n != 0
  | none => false

/-- JS truthiness of an optional string (`''`, `null` falsy). -/
def optStrTruthy : Option String → Bool
  | some s => s != ""
  | none => false

/-- The queue store plus the EXPENSES store, as touched by
`processSyncQueue`. -/
structure SyncState where
  queue : List QItem
  expenses : List Rec
deriving DecidableEq, Repr

/-- One iteration of the `for (const item of items)` loop of
`processSyncQueue` (lines 148-202): mark syncing, dispatch, then either
remove (success — also dropping the local-keyed expense row after a create
that returned a remote id, and the remote-keyed row after a delete) or
mark failed with an incremented retryCount, dropping the item entirely
once that count reaches 5. -/
def stepItem (oracle : QItem → RemoteResult) (st : SyncState)
    (it : QItem) : SyncState :=
  let queue1 := qput st.queue { it with status := QStatus.syncing }
  match oracle it with
  | RemoteResult.ok rid =>
      let queue2 := qremove queue1 it.id
      let expenses2 :=
        if it.op = QOp.create ∧ optNatTruthy rid = true ∧
            optStrTruthy it.localId = true then
          st.expenses.filter (fun r => r.id != EKey.str (it.localId.getD ""))
        else st.expenses
      let expenses3 :=
        if it.op = QOp.delete ∧ optNatTruthy it.remoteId = true then
          expenses2.filter (fun r => r.id != EKey.num (it.remoteId.getD 0))
        else expenses2
      SyncState.mk queue2 expenses3
  | RemoteResult.err e =>
      let updated :=
        { it with status := QStatus.failed, errMsg := e,
                  retryCount := it.retryCount + 1 }
      if 5 ≤ updated.retryCount then
        SyncState.mk (qremove queue1 it.id) st.expenses
      else
        SyncState.mk (qput queue1 updated) st.expenses

/-- `processSyncQueue`: process the snapshot of pending/failed items taken
at entry, in order. -/
def processSyncQueueModel (oracle : QItem → RemoteResult)
    (st : SyncState) : SyncState :=
  (getPendingItems st.queue).foldl (stepItem oracle) st

/-- One sync trigger: the ids dispatched in this cycle and the resulting
state. -/
def runCycle (oracle : QItem → RemoteResult) (st : SyncState) :
    List Nat × SyncState :=
  ((getPendingItems st.queue).map (fun it => it.id),
    processSyncQueueModel oracle st)

/-- Repeated sync triggers. -/
def runCycles (oracle : QItem → RemoteResult) (st : SyncState) :
    Nat → List Nat × SyncState
  | 0 => ([], st)
  | n + 1 =>
      let r := runCycle oracle st
      let rest := runCycles oracle r.2 n
      (r.1 ++ rest.1, rest.2)

theorem mem_qput_self (q : List QItem) (it : QItem) : it ∈ qput q it := by
  induction q with
  | nil => simp [qput]
  | cons j js ih =>
      unfold qput
      by_cases h : j.id = it.id
      · rw [if_pos h]; exact List.mem_cons_self it js
      · rw [if_neg h]; exact List.mem_cons_of_mem j ih

theorem mem_qput_of_ne {q : List QItem} {j : QItem} (hj : j ∈ q)
    (it : QItem) (hne : j.id ≠ it.id) : j ∈ qput q it := by
  induction q with
  | nil => simp at hj
  | cons k ks ih =>
      unfold qput
      rcases List.mem_cons.1 hj with rfl | hj'
      · rw [if_neg (by exact hne)]
        exact List.mem_cons_self j (qput ks it)
      · by_cases h : k.id = it.id
        · rw [if_pos h]; exact List.mem_cons_of_mem it hj'
        · rw [if_neg h]; exact List.mem_cons_of_mem k (ih hj')

theorem mem_qremove_id {q : List QItem} {i : Nat} {r : QItem}
    (h : r ∈ qremove q i) : r.id ≠ i := by
  unfold qremove at h
  rw [List.mem_filter] at h
  simpa using h.2

theorem mem_qremove_of_ne {q : List QItem} {j : QItem} (hj : j ∈ q)
    {i : Nat} (hne : j.id ≠ i) : j ∈ qremove q i := by
  unfold qremove
  rw [List.mem_filter]
  exact ⟨hj, by simpa using hne⟩

/-- The state of the always-failing single-item scenario after `k` sync
cycles: the item has failed `k` times and survives while `k < 5`; from the
fifth failure on the queue is empty for good. -/
def failState (k : Nat) : SyncState :=
  if k < 5 then
    SyncState.mk [QItem.mk 1 QOp.create (some "local_1") none 0
      (if k = 0 then QStatus.pending else QStatus.failed) k
      (if k = 0 then "" else "network")] []
  else SyncState.mk [] []

theorem runCycle_failState (k : Nat) :
    runCycle (fun _ => RemoteResult.err "network") (failState k) =
      ((if k < 5 then [1] else []), failState (k + 1)) := by
  by_cases h : k < 5
  · interval_cases k <;> decide
  · have h6 : ¬ k + 1 < 5 := by omega
    simp [failState, h, h6, runCycle, processSyncQueueModel,
      getPendingItems, insertionSortBy]

theorem runCycles_failState_count (n : Nat) : ∀ k : Nat,
    ((runCycles (fun _ => RemoteResult.err "network")
      (failState k) n).1.count 1) = min n (5 - k) := by
  induction n with
  | zero => intro k; simp [runCycles]
  | succ m ih =>
      intro k
      simp only [runCycles, runCycle_failState]
      rw [List.count_append, ih (k + 1)]
      by_cases h : k < 5
      · rw [if_pos h]
        simp
        omega
      · rw [if_neg h]
        simp
        omega

/-- C5 (confirmed).  Failure handling of the queue drain: a failed dispatch
re-enters the queue with `retryCount` incremented (and the error recorded)
while the new count is below 5; a failure that brings the count to 5
removes the entry for good; a success removes the entry (so nothing is
incremented); entries other than the dispatched one are untouched; and an
always-failing operation enqueued with `retryCount 0` is dispatched exactly
`min n 5` times over `n` sync cycles — never a 6th time. -/
theorem retry_ceiling (oracle : QItem → RemoteResult) (st : SyncState)
    (it : QItem) :
    (∀ e, oracle it = RemoteResult.err e → it.retryCount + 1 < 5 →
      { it with status := QStatus.failed, errMsg := e,
                retryCount := it.retryCount + 1 } ∈
        (stepItem oracle st it).queue) ∧
    (∀ e, oracle it = RemoteResult.err e → 5 ≤ it.retryCount + 1 →
      ∀ r ∈ (stepItem oracle st it).queue, r.id ≠ it.id) ∧
    (∀ rid, oracle it = RemoteResult.ok rid →
      ∀ r ∈ (stepItem oracle st it).queue, r.id ≠ it.id) ∧
    (∀ j ∈ st.queue, j.id ≠ it.id → j ∈ (stepItem oracle st it).queue) ∧
    (∀ n, ((runCycles (fun _ => RemoteResult.err "network")
        (SyncState.mk [queueOperation 1 QOp.create (some "local_1") none 0]
          []) n).1.count 1) = min n 5) := by
  refine ⟨?_, ?_, ?_, ?_, ?_⟩
  · intro e he hlt
    simp only [stepItem, he]
    rw [if_neg (show ¬ (5:ℕ) ≤ it.retryCount + 1 by omega)]
    exact mem_qput_self _ _
  · intro e he hge
    simp only [stepItem, he]
    rw [if_pos (by exact hge)]
    intro r hr
    exact mem_qremove_id hr
  · intro rid he r hr
    simp only [stepItem, he] at hr
    exact mem_qremove_id hr
  · intro j hj hne
    cases horacle : oracle it with
    | ok rid =>
        simp only [stepItem, horacle]
        exact mem_qremove_of_ne
          (mem_qput_of_ne hj { it with status := QStatus.syncing } hne) hne
    | err e =>
        simp only [stepItem, horacle]
        by_cases h5 : 5 ≤ it.retryCount + 1
        · rw [if_pos (by exact h5)]
          exact mem_qremove_of_ne
            (mem_qput_of_ne hj { it with status := QStatus.syncing } hne) hne
        · rw [if_neg (by exact h5)]
          exact mem_qput_of_ne
            (mem_qput_of_ne hj { it with status := QStatus.syncing } hne)
            { it with status := QStatus.failed, errMsg := e,
                      retryCount := it.retryCount + 1 } hne
  · intro n
    have h0 : failState 0 =
        SyncState.mk [queueOperation 1 QOp.create (some "local_1") none 0]
          [] := by decide
    have := runCycles_failState_count n 0
    rw [h0] at this
    simpa using this

/-- Witness for C5: a concrete failed dispatch re-enters with count 1, and
the always-failing scenario run for 7 cycles dispatches exactly 5 times. -/
theorem retry_ceiling_witness :
    (QItem.mk 2 QOp.update none (some 9) 0 QStatus.failed 1 "boom" ∈
      (stepItem (fun _ => RemoteResult.err "boom") (SyncState.mk [] [])
        (QItem.mk 2 QOp.update none (some 9) 0 QStatus.pending 0 "")).queue) ∧
    ((runCycles (fun _ => RemoteResult.err "network")
        (SyncState.mk [queueOperation 1 QOp.create (some "local_1") none 0]
          []) 7).1.count 1) = min 7 5 :=
  ⟨(retry_ceiling (fun _ => RemoteResult.err "boom") (SyncState.mk [] [])
      (QItem.mk 2 QOp.update none (some 9) 0 QStatus.pending 0 "")).1
        "boom" rfl (by decide),
    (retry_ceiling (fun _ => RemoteResult.err "network") (SyncState.mk [] [])
      (QItem.mk 0 QOp.create none none 0 QStatus.pending 0 "")).2.2.2.2 7⟩

/-- Record-id ordering used by `loadFromDB`'s sort (string keys sort as
0). -/
def recIdNum (r : Rec) : Nat :=
  match r.id with
  | EKey.num n => n
  | EKey.str _ => 0

/-- The pull half of the offline store's `sync` (steps after the queue
drain): load and sort the cached rows, compute the highest remote id, fetch
incrementally above it (or everything, when forced or when no remote id is
cached), merge, and `putMany` the merged rows back.  The remote database
content stands in for `odooClient.searchExpenses`. -/
def offlineSyncPull (remoteDb : List (Nat × Nat)) (store : List Rec)
    (forceFullRefresh : Bool) : List Rec :=
  let cached := insertionSortBy
    (fun a b => decide (recIdNum a ≤ recIdNum b)) store
  let remoteIds := cached.filterMap (fun r =>
    match r.id with
    | EKey.num n => some n
    | EKey.str _ => none)
  let maxId : Option Nat :=
    if forceFullRefresh then none
    else
      match remoteIds with
      | [] => none
      | n :: ns => some (ns.foldl Nat.max n)
  let fetched :=
    match maxId with
    | none => remoteDb
    | some mx => remoteDb.filter (fun p => decide (mx < p.1))
  let merged := mergeExpenses cached fetched forceFullRefresh
  upsertMany store merged

/-- C7 counterexample.  The drain itself only deletes the local-keyed row:
after `processSyncQueue` succeeds on the Create (remote id 42), the
EXPENSES store is empty — it does not contain an entry under key 42, so
the claimed rewrite is not performed by the drain. -/
theorem create_drain_only_deletes_local_key :
    (processSyncQueueModel (fun _ => RemoteResult.ok (some 42))
      (SyncState.mk [queueOperation 1 QOp.create (some "local_1") none 0]
        [Rec.mk (EKey.str "local_1") 7 "pending"])).expenses = [] ∧
    ¬ ∃ r ∈ (processSyncQueueModel (fun _ => RemoteResult.ok (some 42))
      (SyncState.mk [queueOperation 1 QOp.create (some "local_1") none 0]
        [Rec.mk (EKey.str "local_1") 7 "pending"])).expenses,
      r.id = EKey.num 42 ∧ r.syncStatus = "synced" := by decide

/-- C7 (corrected, amended claim).  The drain deletes the `local_1` entry;
the entry under remote key 42 with `syncStatus = "synced"` appears when the
same sync cycle's subsequent pull fetches record 42 and stores it: after
drain plus pull the store is exactly the one record keyed 42, synced, and
no `local_1` entry remains. -/
theorem create_drain_then_pull_rewrites_key :
    offlineSyncPull [(42, 7)]
      ((processSyncQueueModel (fun _ => RemoteResult.ok (some 42))
        (SyncState.mk [queueOperation 1 QOp.create (some "local_1") none 0]
          [Rec.mk (EKey.str "local_1") 7 "pending"])).expenses) false =
      [Rec.mk (EKey.num 42) 7 "synced"] := by decide

/-!
The localStorage cache store's `sync`
(`src/src/lib/stores/expenseCache.js` lines 190-310; the per-group variant
in `src/unnamed/part_002` is identical in the modelled respects).  Records
of this variant always carry remote numeric ids; they are modelled as
`(id, data)` pairs.  The remote database content stands in for
`odooClient.searchExpenses`: a query with domain `[['id','>',last]]` is a
filter on it, and the total-count check compares its size against the
locally held record count.
-/

/-- The slice of the cache state that drives the pull decision. -/
structure CState2 where
  expenses : List (Nat × Nat)
  lastRecordId : Nat
deriving DecidableEq, Repr

/-- The fetch-planning part of `sync` (lines 213-239 of
`stores/expenseCache.js`): an incremental fetch above `lastRecordId` when
possible; if it comes back empty and the remote total count disagrees with
the local record count, escalate to a forced full refresh; a full fetch
when forced or when nothing was ever synced.  Returns whether a full pull
was performed together with the fetched records. -/
def syncFetchPlan (remoteDb : List (Nat × Nat)) (st : CState2)
    (forceFullRefresh : Bool) : Bool × List (Nat × Nat) :=
  let step :=
    if forceFullRefresh = false ∧ 0 < st.lastRecordId then
      let fetched := remoteDb.filter (fun p => decide (st.lastRecordId < p.1))
      if fetched.length = 0 ∧ remoteDb.length ≠ st.expenses.length then
        (true, fetched)
      else (forceFullRefresh, fetched)
    else (forceFullRefresh, [])
  if step.1 = true ∨ st.lastRecordId = 0 then (true, remoteDb)
  else (false, step.2)

/-- The incremental merge of `sync` (lines 301-318): append genuinely new
records; if any fetched record's id is already present, replace those
in place instead. -/
def mergeIncremental (cur fetched : List (Nat × Nat)) : List (Nat × Nat) :=
  let newExpenses := fetched.filter (fun p => !(cur.any (fun q => q.1 == p.1)))
  let updatedExpenses := fetched.filter (fun p => cur.any (fun q => q.1 == p.1))
  if updatedExpenses = [] then cur ++ newExpenses
  else
    (cur.map (fun q =>
      match updatedExpenses.find? (fun u => u.1 == q.1) with
      | some u => u
      | none => q)) ++ newExpenses

/-- The full cache state of the localStorage store variant. -/
structure CState9 where
  expenses : List (Nat × Nat)
  lastRecordId : Nat
  syncing : Bool
  error : String
deriving DecidableEq, Repr

/-- The body of `sync` inside its `try`: the pull can throw (a network
error from `searchExpenses`), which the `Except` models; otherwise plan the
fetch, merge or replace, sort by id, and recompute the metadata.  An inner
incremental-fetch failure falls back to a full fetch, which against the
same dead network also throws, so a failed pull propagates to the outer
catch either way. -/
def syncBody9 (st : CState9) (pull : Except String (List (Nat × Nat)))
    (forceFullRefresh : Bool) : Except String CState9 :=
  match pull with
  | Except.error e => Except.error e
  | Except.ok remoteDb =>
      let plan := syncFetchPlan remoteDb
        (CState2.mk st.expenses st.lastRecordId) forceFullRefresh
      let merged := if plan.1 then plan.2
        else mergeIncremental st.expenses plan.2
      let sorted := insertionSortBy (fun a b => decide (a.1 ≤ b.1)) merged
      let lastId := sorted.foldl (fun acc p => Nat.max acc p.1) 0
      Except.ok (CState9.mk sorted lastId false "")

/-- The public `sync` entry point: set the syncing flag, run the body, and
catch any error into the non-fatal error field (`error.message ||
'Failed to sync data'`), leaving the cached expenses untouched. -/
def sync9 (st : CState9) (pull : Except String (List (Nat × Nat)))
    (forceFullRefresh : Bool) : CState9 :=
  let st1 := CState9.mk st.expenses st.lastRecordId true ""
  match syncBody9 st1 pull forceFullRefresh with
  | Except.ok st2 => st2
  | Except.error e =>
      CState9.mk st1.expenses st1.lastRecordId false
        (if e = "" then "Failed to sync data" else e)

/-- C8 (confirmed).  When an incremental pull returns zero new records and
the remote total count differs from the local record count, the engine
escalates to a full pull in the same cycle. -/
theorem incremental_miss_count_mismatch_full_pull
    (remoteDb : List (Nat × Nat)) (st : CState2)
    (hlast : 0 < st.lastRecordId)
    (hempty : remoteDb.filter (fun p => decide (st.lastRecordId < p.1)) = [])
    (hcount : remoteDb.length ≠ st.expenses.length) :
    syncFetchPlan remoteDb st false = (true, remoteDb) := by
  simp [syncFetchPlan, hlast, hempty, hcount]

/-- Witness for C8: remote total count 5 versus local synced count 4 with
an empty incremental result forces a full pull. -/
theorem incremental_miss_count_mismatch_full_pull_witness :
    syncFetchPlan [(1, 0), (2, 0), (3, 0), (4, 0), (5, 0)]
      (CState2.mk [(1, 0), (2, 0), (3, 0), (5, 0)] 5) false =
      (true, [(1, 0), (2, 0), (3, 0), (4, 0), (5, 0)]) :=
  incremental_miss_count_mismatch_full_pull
    [(1, 0), (2, 0), (3, 0), (4, 0), (5, 0)]
    (CState2.mk [(1, 0), (2, 0), (3, 0), (5, 0)] 5)
    (by decide) (by decide) (by decide)

/-- C9 (confirmed).  A network failure during the pull phase never escapes
`sync`: the entry point is a total function (the model catches every body
error), the previously cached record set is left intact, the syncing flag
is cleared, and the failure is surfaced only as a non-empty error string. -/
theorem sync_network_error_keeps_cache (st : CState9) (e : String)
    (forceFullRefresh : Bool) :
    (sync9 st (Except.error e) forceFullRefresh).expenses = st.expenses ∧
    (sync9 st (Except.error e) forceFullRefresh).syncing = false ∧
    (sync9 st (Except.error e) forceFullRefresh).error ≠ "" := by
  refine ⟨rfl, rfl, ?_⟩
  show (if e = "" then "Failed to sync data" else e) ≠ ""
  by_cases h : e = ""
  · rw [if_pos h]
    decide
  · rwa [if_neg h]
